import Mathlib

set_option linter.unusedVariables false

/-!
Shallow embedding of the collaborative canvas server's room-scoped drawing
state engine (`src/server/drawing-state.js`), the room directory
(`src/server/rooms.js`), and the drawing-state portion of the join handler
(main server file).  JavaScript `Map`s keyed by strings are embedded as
functions `String → Option α`; JS arrays used as stacks (push / pop at the
end) are embedded as Lean lists with push `l ++ [x]` and pop `getLast?` /
`dropLast`.  Effectful inputs (`uuidv4()`, `Date.now()`, the persistence
collaborator's load result) are passed as explicit parameters.
-/

/-- A canvas point `{x, y}`. -/
structure Point where
  x : Int
  y : Int
deriving DecidableEq

/-- A stroke object as built by `DrawingState.startStroke`. -/
structure Stroke where
  id : String
  userId : String
  tool : String
  color : String
  width : Int
  points : List Point
  timestamp : Nat
  completed : Bool
deriving DecidableEq

/-- The `data` payload handed to `startStroke` (fields may be absent/falsy). -/
structure StrokeData where
  strokeId : Option String
  tool : Option String
  color : Option String
  width : Option Int
  x : Int
  y : Int
deriving DecidableEq

/-- Result objects `{success, strokeId?/reason?}` returned by undo / redo. -/
inductive OpResult where
  | ok (strokeId : String)
  | fail (reason : String)
deriving DecidableEq

/-- Per-room drawing state: completed strokes, per-user active strokes and
per-user undo (stroke ids) / redo (stroke objects) stacks. -/
structure Room where
  strokes : List Stroke
  activeStrokes : String → Option Stroke
  undoStack : String → Option (List String)
  redoStack : String → Option (List Stroke)

/-- JS `Map.set`. -/
def mset {α : Type} (m : String → Option α) (k : String) (v : α) :
    String → Option α :=
  fun k2 => if k2 = k then some v else m k2

/-- JS `Map.delete`. -/
def mdel {α : Type} (m : String → Option α) (k : String) :
    String → Option α :=
  fun k2 => if k2 = k then none else m k2

/-- JS `v || d` for optional strings (`undefined` and `""` are falsy). -/
def jsOrStr (v : Option String) (d : String) : String :=
  match v with
  | some s => if s = "" then d else s
  | none => d

/-- JS `v || d` for optional numbers (`undefined` and `0` are falsy). -/
def jsOrInt (v : Option Int) (d : Int) : Int :=
  match v with
  | some n => if n = 0 then d else n
  | none => d

/-- The fresh room state installed by `initRoom`. -/
def emptyRoom : Room :=
  { strokes := []
    activeStrokes := fun _ => none
    undoStack := fun _ => none
    redoStack := fun _ => none }

/-- `DrawingState.startStroke`: builds the stroke object (client-supplied id
or a fresh uuid, defaulted tool/color/width, the single origin point) and
stores it as the user's active stroke.  `freshId` stands for `uuidv4()` and
`now` for `Date.now()`. -/
def startStroke (room : Room) (userId : String) (data : StrokeData)
    (freshId : String) (now : Nat) : Room × Stroke :=
  let stroke : Stroke :=
    { id := jsOrStr data.strokeId freshId
      userId := userId
      tool := jsOrStr data.tool "brush"
      color := jsOrStr data.color "#000000"
      width := jsOrInt data.width 3
      points := [{ x := data.x, y := data.y }]
      timestamp := now
      completed := false }
  ({ room with activeStrokes := mset room.activeStrokes userId stroke }, stroke)

/-- `DrawingState.addPoints`: appends the batch to the user's active stroke
when one exists and the batch is non-empty; otherwise does nothing. -/
def addPoints (room : Room) (userId : String) (points : List Point) : Room :=
  match room.activeStrokes userId with
  | some stroke =>
      if points.length > 0 then
        { room with
            activeStrokes := mset room.activeStrokes userId
              { stroke with points := stroke.points ++ points } }
      else room
  | none => room

/-- `DrawingState.endStroke`: if the user has an active stroke, marks it
completed, appends it to `strokes`, deletes it from `activeStrokes`, pushes
its id on the user's undo stack and resets the user's redo stack to `[]`.
The `strokeId` argument is accepted but never consulted, exactly as in the
source. -/
def endStroke (room : Room) (userId : String) (strokeId : String) : Room :=
  match room.activeStrokes userId with
  | some stroke =>
      let stroke2 := { stroke with completed := true }
      { room with
          strokes := room.strokes ++ [stroke2]
          activeStrokes := mdel room.activeStrokes userId
          undoStack := mset room.undoStack userId
            (((room.undoStack userId).getD []) ++ [stroke2.id])
          redoStack := mset room.redoStack userId [] }
  | none => room

/-- `strokes.findIndex(s => s.id === strokeId)` followed by
`strokes.splice(strokeIndex, 1)`: removes the first stroke (scanning from the
front) whose id matches, returning it together with the remaining list. -/
def removeFirstById (strokes : List Stroke) (strokeId : String) :
    Option (Stroke × List Stroke) :=
  match strokes with
  | [] => none
  | s :: rest =>
      if s.id = strokeId then some (s, rest)
      else (removeFirstById rest strokeId).map fun p => (p.1, s :: p.2)

/-- `DrawingState.undo`: pops the top id off the user's undo stack (failing
with `Nothing to undo` when absent/empty), then looks the id up in `strokes`
with `findIndex`.  On a miss it returns `Stroke not found` with the undo
stack already popped (the source performs no rollback).  On a hit it removes
the stroke and pushes the stroke object on the user's redo stack. -/
def undo (room : Room) (userId : String) : Room × OpResult :=
  match room.undoStack userId with
  | none => (room, .fail "Nothing to undo")
  | some stack =>
      match stack.getLast? with
      | none => (room, .fail "Nothing to undo")
      | some strokeId =>
          let room1 :=
            { room with undoStack := mset room.undoStack userId stack.dropLast }
          match removeFirstById room.strokes strokeId with
          | none => (room1, .fail "Stroke not found")
          | some (stroke, rest) =>
              ({ room1 with
                  strokes := rest
                  redoStack := mset room.redoStack userId
                    (((room.redoStack userId).getD []) ++ [stroke]) },
               .ok strokeId)

/-- `DrawingState.redo`: pops the top stroke object off the user's redo stack
(failing with `Nothing to redo` when absent/empty), appends it back to the
end of `strokes` and pushes its id back on the user's undo stack. -/
def redo (room : Room) (userId : String) : Room × OpResult :=
  match room.redoStack userId with
  | none => (room, .fail "Nothing to redo")
  | some stack =>
      match stack.getLast? with
      | none => (room, .fail "Nothing to redo")
      | some stroke =>
          ({ room with
              strokes := room.strokes ++ [stroke]
              redoStack := mset room.redoStack userId stack.dropLast
              undoStack := mset room.undoStack userId
                (((room.undoStack userId).getD []) ++ [stroke.id]) },
           .ok stroke.id)

/-- `DrawingState.clearRoom`: empties `strokes`, `activeStrokes` and all
undo/redo stacks of the room. -/
def clearRoom (_room : Room) : Room :=
  { strokes := []
    activeStrokes := fun _ => none
    undoStack := fun _ => none
    redoStack := fun _ => none }

/-- The `DrawingState` manager: `rooms` is the roomId-keyed map. -/
structure DrawingState where
  rooms : String → Option Room

/-- `DrawingState.initRoom`: installs a fresh room state unless one exists. -/
def DrawingState.initRoom (ds : DrawingState) (roomId : String) :
    DrawingState :=
  match ds.rooms roomId with
  | some _ => ds
  | none => { rooms := mset ds.rooms roomId emptyRoom }

/-- `DrawingState.getStrokes`: the room's completed strokes, `[]` when the
room does not exist. -/
def DrawingState.getStrokes (ds : DrawingState) (roomId : String) :
    List Stroke :=
  match ds.rooms roomId with
  | none => []
  | some room => room.strokes

/-- `DrawingState.setStrokes`: ensures the room exists (`getRoom`) and
replaces its stroke list with `strokes || []`. -/
def DrawingState.setStrokes (ds : DrawingState) (roomId : String)
    (strokes : Option (List Stroke)) : DrawingState :=
  let ds1 := ds.initRoom roomId
  let room := (ds1.rooms roomId).getD emptyRoom
  { rooms := mset ds1.rooms roomId { room with strokes := strokes.getD [] } }

/-- The drawing-state portion of the `join-room` handler: `initRoom`, then
hydrate from the persisted `loaded` strokes only when the room's current
stroke list is empty and the load produced a non-empty list. -/
def joinHydrate (ds : DrawingState) (roomId : String)
    (loaded : Option (List Stroke)) : DrawingState :=
  let ds1 := ds.initRoom roomId
  let roomStrokes := ds1.getStrokes roomId
  if roomStrokes.length = 0 then
    match loaded with
    | some saved =>
        if saved.length > 0 then ds1.setStrokes roomId (some saved) else ds1
    | none => ds1
  else ds1

/-- A user record held by the room directory. -/
structure RMUser where
  id : String
  username : String
  color : String
  joinedAt : Nat
deriving DecidableEq

/-- A room record of `RoomManager` (`users` is a socketId-keyed map whose
`size` is the entry count, embedded as an association list). -/
structure RMRoom where
  id : String
  users : List (String × RMUser)
  createdAt : Nat
  colorIndex : Nat
deriving DecidableEq

/-- The `RoomManager`: `rooms` is the roomId-keyed map. -/
structure RoomManager where
  rooms : String → Option RMRoom

/-- `RoomManager.isRoomEmpty`: `!room || room.users.size === 0`. -/
def RoomManager.isRoomEmpty (rm : RoomManager) (roomId : String) : Bool :=
  match rm.rooms roomId with
  | none => true
  | some room => room.users.length == 0

/-- Ids of the strokes in a list, in order. -/
def strokeIds (l : List Stroke) : List String :=
  l.map fun s => s.id

/-- Ids currently sitting in a user's redo stack. -/
def redoIds (room : Room) (u : String) : List String :=
  strokeIds ((room.redoStack u).getD [])

/-- The spec's id-uniqueness invariant: stroke ids are pairwise distinct in
`strokes`, each redo stack is duplicate-free, no id is both in `strokes` and
in some redo stack, and no id is in two different users' redo stacks. -/
def StateInv (room : Room) : Prop :=
  (strokeIds room.strokes).Nodup ∧
  (∀ u, (redoIds room u).Nodup) ∧
  (∀ u i, i ∈ redoIds room u → i ∉ strokeIds room.strokes) ∧
  (∀ u v i, u ≠ v → i ∈ redoIds room u → i ∉ redoIds room v)

/-- A draw-start payload carrying the client-supplied stroke id `"x"`,
origin `(0, 0)`. -/
def dataX0 : StrokeData :=
  { strokeId := some "x", tool := none, color := none, width := none
    x := 0, y := 0 }

/-- A draw-start payload carrying the client-supplied stroke id `"x"`,
origin `(1, 1)`. -/
def dataX1 : StrokeData :=
  { strokeId := some "x", tool := none, color := none, width := none
    x := 1, y := 1 }

/-- A completed stroke of id `"x"` by user `"u"` at `(0, 0)`. -/
def strokeX0 : Stroke :=
  { id := "x", userId := "u", tool := "brush", color := "#000000", width := 3
    points := [{ x := 0, y := 0 }], timestamp := 0, completed := true }

/-- A completed stroke of id `"x"` by user `"u"` at `(1, 1)`. -/
def strokeX1 : Stroke :=
  { id := "x", userId := "u", tool := "brush", color := "#000000", width := 3
    points := [{ x := 1, y := 1 }], timestamp := 0, completed := true }

/-- A corrupted room: user `"u"`'s undo stack holds id `"x"` although no such
stroke is present in `strokes` — the situation `Stroke not found` guards. -/
def roomMissingTop : Room :=
  { strokes := []
    activeStrokes := fun _ => none
    undoStack := fun k => if k = "u" then some ["x"] else none
    redoStack := fun _ => none }

/-- A room in which two distinct strokes share the id `"x"` and that id sits
on top of user `"u"`'s undo stack. -/
def roomDupIds : Room :=
  { strokes := [strokeX0, strokeX1]
    activeStrokes := fun _ => none
    undoStack := fun k => if k = "u" then some ["x"] else none
    redoStack := fun _ => none }

/-- User `"u"` has an active stroke of id `"x"` (just started). -/
def roomActiveX : Room := (startStroke emptyRoom "u" dataX0 "f" 0).1

/-- Room reached by start/complete, then undo, for user `"u"`: the redo
stack holds the undone stroke and no stroke is active. -/
def roomStaleComplete : Room :=
  (undo (endStroke ((startStroke emptyRoom "u" dataX0 "f" 0).1) "u" "x") "u").1

/-- Room reached by completing the client-replayed stroke id `"x"` twice for
user `"u"`: `strokes` then holds the id `"x"` twice. -/
def roomReplay : Room :=
  endStroke
    ((startStroke
      (endStroke ((startStroke emptyRoom "u" dataX0 "f1" 0).1) "u" "x")
      "u" dataX0 "f2" 0).1)
    "u" "x"

/-- Room reached by user `"B"` completing a stroke of id `"x"`, then user
`"A"` completing a different stroke that reuses the same client id `"x"`. -/
def roomBThenA : Room :=
  endStroke
    ((startStroke
      (endStroke ((startStroke emptyRoom "B" dataX0 "fB" 0).1) "B" "x")
      "A" dataX1 "fA" 1).1)
    "A" "x"

/-- Room in which user `"u"` has completed exactly the one stroke `"x"`. -/
def roomOneDone : Room :=
  endStroke ((startStroke emptyRoom "u" dataX0 "f" 0).1) "u" "x"

/-- A drawing-state manager with one live room `"r"` holding one stroke. -/
def dsLive : DrawingState :=
  { rooms := fun k =>
      if k = "r" then some { emptyRoom with strokes := [strokeX0] } else none }

/-- A room manager with no rooms at all. -/
def rmEmptyMgr : RoomManager := { rooms := fun _ => none }

/-- A draw-start payload carrying the client-supplied stroke id `"y"`,
origin `(2, 2)`. -/
def dataY0 : StrokeData :=
  { strokeId := some "y", tool := none, color := none, width := none
    x := 2, y := 2 }

/-- The completed stroke user `"B"` produces from `dataX0`. -/
def strokeBX : Stroke :=
  { id := "x", userId := "B", tool := "brush", color := "#000000", width := 3
    points := [{ x := 0, y := 0 }], timestamp := 0, completed := true }

/-- The completed stroke user `"A"` produces from `dataY0`. -/
def strokeAY : Stroke :=
  { id := "y", userId := "A", tool := "brush", color := "#000000", width := 3
    points := [{ x := 2, y := 2 }], timestamp := 1, completed := true }

/-- Room reached by user `"B"` completing stroke `"x"`, then user `"A"`
completing stroke `"y"` (distinct ids). -/
def roomTwoUsers : Room :=
  endStroke
    ((startStroke
      (endStroke ((startStroke emptyRoom "B" dataX0 "fB" 0).1) "B" "x")
      "A" dataY0 "fA" 1).1)
    "A" "y"

/-! ### Claims about the room directory and join hydration -/

/-- C10: `isRoomEmpty` treats a roomId with no directory entry as empty —
it returns `true` for an absent room, the same answer as for an existing
room with zero users, and never throws. -/
theorem isRoomEmpty_absent_room (rm : RoomManager) (roomId : String) :
    (rm.rooms roomId = none → rm.isRoomEmpty roomId = true) ∧
    (∀ room, rm.rooms roomId = some room → room.users = [] →
      rm.isRoomEmpty roomId = true) := by
  constructor
  · intro h
    simp [RoomManager.isRoomEmpty, h]
  · intro room h hu
    simp [RoomManager.isRoomEmpty, h, hu]

/-- Witness for C10 at a manager with no rooms. -/
theorem isRoomEmpty_absent_room_witness :
    rmEmptyMgr.isRoomEmpty "r" = true :=
  (isRoomEmpty_absent_room rmEmptyMgr "r").1 rfl

/-- C9: on join, if the room's completed-stroke list is non-empty, the
persisted load result is never applied — the drawing state is unchanged no
matter what the persistence collaborator returned. -/
theorem joinHydrate_no_clobber (ds : DrawingState) (roomId : String)
    (loaded : Option (List Stroke)) (h : ds.getStrokes roomId ≠ []) :
    joinHydrate ds roomId loaded = ds := by
  cases hr : ds.rooms roomId with
  | none =>
      exact absurd (by simp [DrawingState.getStrokes, hr]) h
  | some room =>
      have hinit : ds.initRoom roomId = ds := by
        simp [DrawingState.initRoom, hr]
      have hgs : ds.getStrokes roomId = room.strokes := by
        simp [DrawingState.getStrokes, hr]
      have hlen : ¬ (ds.getStrokes roomId).length = 0 := by
        simpa [List.length_eq_zero] using h
      simp [joinHydrate, hinit, hlen]

/-- Witness for C9 at a live room with one stroke and a conflicting saved
list. -/
theorem joinHydrate_no_clobber_witness :
    joinHydrate dsLive "r" (some [strokeX1]) = dsLive :=
  joinHydrate_no_clobber dsLive "r" (some [strokeX1]) (by decide)

/-! ### Claims about completeStroke -/

/-- C2 counterexample: with an active stroke of id `"x"` for user `"u"`,
calling completeStroke with the mismatched id `"y"` is NOT a no-op — the
stroke list changes (the active stroke is completed regardless). -/
theorem endStroke_mismatch_changes_strokes :
    (endStroke roomActiveX "u" "y").strokes ≠ roomActiveX.strokes := by
  decide

/-- C2 amended: completeStroke with no active stroke for the owner is a
no-op (never raises, state unchanged); and the `strokeId` argument is never
consulted, so its value does not affect the result. -/
theorem endStroke_no_active_noop (room : Room) (u sid sid2 : String) :
    (room.activeStrokes u = none → endStroke room u sid = room) ∧
    endStroke room u sid = endStroke room u sid2 := by
  constructor
  · intro h
    simp [endStroke, h]
  · rfl

/-- Witness for C2's amended theorem at the empty room. -/
theorem endStroke_no_active_noop_witness :
    endStroke emptyRoom "u" "x" = emptyRoom :=
  (endStroke_no_active_noop emptyRoom "u" "x" "y").1 rfl

/-- C7 counterexample: after a reachable start/complete/undo sequence,
a stale completeStroke call (owner has no active stroke) leaves the owner's
redo stack non-empty, contradicting "after any call to completeStroke the
redo stack is empty". -/
theorem endStroke_stale_leaves_redo :
    ((endStroke roomStaleComplete "u" "x").redoStack "u").getD [] ≠ [] := by
  decide

/-- C7 amended: after a completeStroke that actually completes an active
stroke, the owner's redo stack is empty regardless of its prior contents;
a completeStroke with no active stroke is a no-op and leaves it unchanged. -/
theorem endStroke_active_clears_redo (room : Room) (u sid : String)
    (a : Stroke) (h : room.activeStrokes u = some a) :
    (endStroke room u sid).redoStack u = some [] := by
  simp [endStroke, h, mset]

/-- Witness for C7's amended theorem right after a startStroke. -/
theorem endStroke_active_clears_redo_witness :
    (endStroke roomActiveX "u" "x").redoStack "u" = some [] :=
  endStroke_active_clears_redo roomActiveX "u" "x"
    ((startStroke emptyRoom "u" dataX0 "f" 0).2) rfl

/-! ### Claims about undo failing with Stroke not found -/

/-- C1 counterexample: at `roomMissingTop` the undo fails with
`Stroke not found`, yet user `"u"`'s undo stack is NOT the same as before
the call — the popped id is not restored. -/
theorem undo_strokeNotFound_pops_stack :
    (undo roomMissingTop "u").2 = OpResult.fail "Stroke not found" ∧
    (undo roomMissingTop "u").1.undoStack "u" ≠ roomMissingTop.undoStack "u" := by
  decide

/-- C1 amended: when undo fails with `Stroke not found`, `strokes`,
`redoStack` and `activeStrokes` are untouched, but the owner's undo stack
has had its top popped without restoration (no further corruption, no
rollback). -/
theorem undo_strokeNotFound_effect (room : Room) (u : String)
    (h : (undo room u).2 = OpResult.fail "Stroke not found") :
    (undo room u).1.strokes = room.strokes ∧
    (undo room u).1.redoStack = room.redoStack ∧
    (undo room u).1.activeStrokes = room.activeStrokes ∧
    ∃ stack, room.undoStack u = some stack ∧ stack ≠ [] ∧
      (undo room u).1.undoStack = mset room.undoStack u stack.dropLast := by
  cases hu : room.undoStack u with
  | none => simp [undo, hu] at h
  | some stack =>
      cases hl : stack.getLast? with
      | none => simp [undo, hu, hl] at h
      | some i =>
          cases hr : removeFirstById room.strokes i with
          | some p =>
              obtain ⟨s0, rest⟩ := p
              simp [undo, hu, hl, hr] at h
          | none =>
              have hres : undo room u =
                  ({ room with
                      undoStack := mset room.undoStack u stack.dropLast },
                   OpResult.fail "Stroke not found") := by
                simp only [undo, hu, hl, hr]
              rw [hres]
              refine ⟨rfl, rfl, rfl, stack, rfl, ?_, rfl⟩
              intro hs
              rw [hs] at hl
              simp at hl

/-- Witness for C1's amended theorem at the corrupted room. -/
theorem undo_strokeNotFound_effect_witness :
    (undo roomMissingTop "u").1.strokes = roomMissingTop.strokes ∧
    (undo roomMissingTop "u").1.redoStack = roomMissingTop.redoStack ∧
    (undo roomMissingTop "u").1.activeStrokes = roomMissingTop.activeStrokes ∧
    ∃ stack, roomMissingTop.undoStack "u" = some stack ∧ stack ≠ [] ∧
      (undo roomMissingTop "u").1.undoStack =
        mset roomMissingTop.undoStack "u" stack.dropLast :=
  undo_strokeNotFound_effect roomMissingTop "u" (by decide)

/-! ### List helper lemmas about removeFirstById -/

/-- A successful `removeFirstById` removes the first match: the list splits
as `l1 ++ s :: l2` with no match in `l1`, and the remainder is `l1 ++ l2`. -/
theorem removeFirstById_eq_some {l : List Stroke} {i : String} {s : Stroke}
    {rest : List Stroke} (h : removeFirstById l i = some (s, rest)) :
    s.id = i ∧ ∃ l1 l2, l = l1 ++ s :: l2 ∧ rest = l1 ++ l2 ∧
      ∀ t ∈ l1, t.id ≠ i := by
  induction l generalizing rest with
  | nil => simp [removeFirstById] at h
  | cons a as ih =>
      by_cases ha : a.id = i
      · rw [removeFirstById, if_pos ha] at h
        obtain ⟨rfl, rfl⟩ : a = s ∧ as = rest := by simpa using h
        exact ⟨ha, [], as, rfl, rfl, by simp⟩
      · rw [removeFirstById, if_neg ha] at h
        cases hr : removeFirstById as i with
        | none => rw [hr] at h; simp at h
        | some p =>
            rw [hr] at h
            obtain ⟨s1, rest1⟩ := p
            obtain ⟨rfl, rfl⟩ : s1 = s ∧ a :: rest1 = rest := by simpa using h
            obtain ⟨hid, l1, l2, hl, hrest, hnone⟩ := ih hr
            refine ⟨hid, a :: l1, l2, by simp [hl], by simp [hrest], ?_⟩
            intro t ht
            rcases List.mem_cons.1 ht with rfl | ht2
            · exact ha
            · exact hnone t ht2

/-- `removeFirstById` on a list whose first match is `s` (nothing in `l1`
matches) yields `s` and `l1 ++ l2`. -/
theorem removeFirstById_append_first {l1 l2 : List Stroke} {i : String}
    {s : Stroke} (hnone : ∀ t ∈ l1, t.id ≠ i) (hs : s.id = i) :
    removeFirstById (l1 ++ s :: l2) i = some (s, l1 ++ l2) := by
  induction l1 with
  | nil => simp [removeFirstById, hs]
  | cons a as ih =>
      have ha : a.id ≠ i := hnone a (by simp)
      rw [List.cons_append, removeFirstById, if_neg ha,
        ih fun t ht => hnone t (by simp [ht])]
      rfl

/-- Any id present in a stroke list admits a first-occurrence split. -/
theorem exists_first_match {l : List Stroke} {i : String}
    (h : i ∈ strokeIds l) :
    ∃ l1 s l2, l = l1 ++ s :: l2 ∧ s.id = i ∧ ∀ t ∈ l1, t.id ≠ i := by
  induction l with
  | nil => simp [strokeIds] at h
  | cons a as ih =>
      by_cases ha : a.id = i
      · exact ⟨[], a, as, rfl, ha, by simp⟩
      · have h2 : i ∈ strokeIds as := by
          rcases (by simpa [strokeIds] using h : i = a.id ∨ i ∈ strokeIds as)
            with h3 | h3
          · exact absurd h3.symm ha
          · exact h3
        obtain ⟨l1, s, l2, hsplit, hs, hn⟩ := ih h2
        refine ⟨a :: l1, s, l2, by simp [hsplit], hs, ?_⟩
        intro t ht
        rcases List.mem_cons.1 ht with rfl | ht2
        · exact ha
        · exact hn t ht2

/-! ### Claims about undo and redo -/

/-- C3 counterexample: two strokes share the id `"x"`; undo removes the
FIRST (oldest) matching stroke, keeping `strokeX1`, whereas the claim (scan
from the end, remove the most recent match) demands that `strokeX0` remain
and that `strokeX1` be the stroke pushed on the redo stack. -/
theorem undo_dup_removes_oldest :
    (undo roomDupIds "u").1.strokes = [strokeX1] ∧
    (undo roomDupIds "u").1.strokes ≠ [strokeX0] ∧
    (undo roomDupIds "u").1.redoStack "u" = some [strokeX0] := by
  decide

/-- C3 amended: with the top undo-stack id present in `strokes`, undo
removes the FIRST (earliest) stroke whose id matches — located by linear
scan from the front — preserving the relative order of the remaining
strokes, and pushes that full stroke object onto the owner's redo stack. -/
theorem undo_removes_first_match (room : Room) (u : String)
    (stack : List String) (i : String)
    (hu : room.undoStack u = some stack)
    (hl : stack.getLast? = some i)
    (hmem : i ∈ strokeIds room.strokes) :
    ∃ l1 s l2, room.strokes = l1 ++ s :: l2 ∧ s.id = i ∧
      (∀ t ∈ l1, t.id ≠ i) ∧
      (undo room u).2 = OpResult.ok i ∧
      (undo room u).1.strokes = l1 ++ l2 ∧
      (undo room u).1.redoStack u =
        some (((room.redoStack u).getD []) ++ [s]) := by
  obtain ⟨l1, s, l2, hsplit, hsid, hnone⟩ := exists_first_match hmem
  have hr : removeFirstById room.strokes i = some (s, l1 ++ l2) := by
    rw [hsplit]
    exact removeFirstById_append_first hnone hsid
  refine ⟨l1, s, l2, hsplit, hsid, hnone, ?_, ?_, ?_⟩
  · simp [undo, hu, hl, hr]
  · simp [undo, hu, hl, hr]
  · simp [undo, hu, hl, hr, mset]

/-- Witness for C3's amended theorem at a room with one completed stroke. -/
theorem undo_removes_first_match_witness :
    ∃ l1 s l2, roomOneDone.strokes = l1 ++ s :: l2 ∧ s.id = "x" ∧
      (∀ t ∈ l1, t.id ≠ "x") ∧
      (undo roomOneDone "u").2 = OpResult.ok "x" ∧
      (undo roomOneDone "u").1.strokes = l1 ++ l2 ∧
      (undo roomOneDone "u").1.redoStack "u" =
        some (((roomOneDone.redoStack "u").getD []) ++ [s]) :=
  undo_removes_first_match roomOneDone "u" ["x"] "x" (by decide) (by decide)
    (by decide)

/-- C8 counterexample: user `"B"` completes a stroke with client id `"x"`,
then user `"A"` completes a different stroke reusing the id `"x"`. `"A"`'s
undo succeeds but removes `"B"`'s stroke: the only remaining stroke belongs
to `"A"`, so `"B"`'s stroke did not remain. -/
theorem undo_crossUser_removes_B :
    (undo roomBThenA "A").2 = OpResult.ok "x" ∧
    ((undo roomBThenA "A").1.strokes.map fun s => s.userId) = ["A"] := by
  decide

/-- C8 amended: in any room where owner `A`'s undo stack holds exactly the
id of `A`'s single completed stroke and no earlier stroke in the list shares
that id, `A`'s undo removes exactly that stroke; every other stroke —
in particular any stroke of another user `B` — remains. -/
theorem undo_removes_only_A (room : Room) (A : String) (stkA : Stroke)
    (l1 l2 : List Stroke)
    (howner : stkA.userId = A)
    (hsplit : room.strokes = l1 ++ stkA :: l2)
    (hfirst : ∀ t ∈ l1, t.id ≠ stkA.id)
    (hstack : room.undoStack A = some [stkA.id]) :
    (undo room A).2 = OpResult.ok stkA.id ∧
    (undo room A).1.strokes = l1 ++ l2 ∧
    ∀ stkB ∈ l1 ++ l2, stkB ∈ (undo room A).1.strokes := by
  have hr : removeFirstById room.strokes stkA.id = some (stkA, l1 ++ l2) := by
    rw [hsplit]
    exact removeFirstById_append_first hfirst rfl
  have hl : ([stkA.id] : List String).getLast? = some stkA.id := rfl
  refine ⟨?_, ?_, ?_⟩
  · simp [undo, hstack, hl, hr]
  · simp [undo, hstack, hl, hr]
  · intro stkB hB
    simpa [undo, hstack, hl, hr] using hB

/-- Witness for C8's amended theorem: `"B"` then `"A"` complete strokes with
distinct ids; `"A"`'s undo removes only `"A"`'s stroke. -/
theorem undo_removes_only_A_witness :
    (undo roomTwoUsers "A").2 = OpResult.ok strokeAY.id ∧
    (undo roomTwoUsers "A").1.strokes = [strokeBX] ++ [] ∧
    ∀ stkB ∈ [strokeBX] ++ ([] : List Stroke),
      stkB ∈ (undo roomTwoUsers "A").1.strokes :=
  undo_removes_only_A roomTwoUsers "A" strokeAY [strokeBX] [] (by decide)
    (by decide) (by decide) (by decide)

/-- C5: a successful undo by an owner, immediately followed by redo by the
same owner, restores the removed stroke: redo succeeds with the same id, the
stroke object reappears at the end of `strokes`, and its id is pushed back
onto the owner's undo stack. -/
theorem undo_then_redo_restores (room : Room) (u : String) (i : String)
    (h : (undo room u).2 = OpResult.ok i) :
    ∃ s rest, s.id = i ∧
      removeFirstById room.strokes i = some (s, rest) ∧
      (redo (undo room u).1 u).2 = OpResult.ok i ∧
      (redo (undo room u).1 u).1.strokes = (undo room u).1.strokes ++ [s] ∧
      ∃ st, (redo (undo room u).1 u).1.undoStack u = some (st ++ [i]) := by
  cases hu : room.undoStack u with
  | none => simp [undo, hu] at h
  | some stack =>
      cases hl : stack.getLast? with
      | none => simp [undo, hu, hl] at h
      | some j =>
          cases hr : removeFirstById room.strokes j with
          | none => simp [undo, hu, hl, hr] at h
          | some p =>
              obtain ⟨s, rest⟩ := p
              have hij : j = i := by simpa [undo, hu, hl, hr] using h
              subst hij
              have hsid : s.id = j := (removeFirstById_eq_some hr).1
              refine ⟨s, rest, hsid, hr, ?_, ?_, stack.dropLast, ?_⟩
              · simp [undo, redo, hu, hl, hr, mset, List.getLast?_concat, hsid]
              · simp [undo, redo, hu, hl, hr, mset, List.getLast?_concat,
                  List.dropLast_concat]
              · simp [undo, redo, hu, hl, hr, mset, List.getLast?_concat,
                  hsid]

/-- Witness for C5 at a room with one completed stroke. -/
theorem undo_then_redo_restores_witness :
    ∃ s rest, s.id = "x" ∧
      removeFirstById roomOneDone.strokes "x" = some (s, rest) ∧
      (redo (undo roomOneDone "u").1 "u").2 = OpResult.ok "x" ∧
      (redo (undo roomOneDone "u").1 "u").1.strokes =
        (undo roomOneDone "u").1.strokes ++ [s] ∧
      ∃ st, (redo (undo roomOneDone "u").1 "u").1.undoStack "u" =
        some (st ++ ["x"]) :=
  undo_then_redo_restores roomOneDone "u" "x" (by decide)

/-! ### The point-accumulation claim -/

/-- Folding appendPoints batches into the owner's active stroke accumulates
their concatenation onto its points and changes nothing else. -/
theorem foldl_addPoints_active (batches : List (List Point)) (room : Room)
    (u : String) (s0 : Stroke) (h : room.activeStrokes u = some s0) :
    (batches.foldl (fun r b => addPoints r u b) room).activeStrokes u =
        some { s0 with points := s0.points ++ batches.flatten } ∧
    (batches.foldl (fun r b => addPoints r u b) room).strokes = room.strokes ∧
    (batches.foldl (fun r b => addPoints r u b) room).undoStack =
        room.undoStack ∧
    (batches.foldl (fun r b => addPoints r u b) room).redoStack =
        room.redoStack := by
  induction batches generalizing room s0 with
  | nil =>
      refine ⟨?_, rfl, rfl, rfl⟩
      rw [List.foldl_nil, h]
      simp
  | cons b bs ih =>
      rw [List.foldl_cons]
      by_cases hb : b.length > 0
      · have hstep : addPoints room u b =
            { room with
              activeStrokes :=
                mset room.activeStrokes u
                  { s0 with points := s0.points ++ b } } := by
          simp [addPoints, h, hb]
        rw [hstep]
        have h2 : ({ room with
              activeStrokes :=
                mset room.activeStrokes u
                  { s0 with points := s0.points ++ b } } : Room).activeStrokes
              u = some { s0 with points := s0.points ++ b } := by
          simp [mset]
        obtain ⟨ha, hs, hun, hre⟩ := ih _ _ h2
        refine ⟨?_, hs, hun, hre⟩
        rw [ha]
        simp [List.append_assoc]
      · have hb0 : b = [] := List.length_eq_zero.mp (Nat.eq_zero_of_not_pos hb)
        have hstep : addPoints room u b = room := by
          simp [addPoints, h, hb0]
        rw [hstep]
        obtain ⟨ha, hs, hun, hre⟩ := ih room s0 h
        subst hb0
        refine ⟨?_, hs, hun, hre⟩
        rw [ha]
        simp

/-- C6: for any startStroke, then any sequence of appendPoints batches, then
completeStroke, all by a single owner, the entry appended to `strokes` has
points equal to the initial point followed by the batches in call order. -/
theorem complete_after_appends_points (room : Room) (u : String)
    (data : StrokeData) (freshId : String) (now : Nat)
    (batches : List (List Point)) (sid : String) :
    ∃ entry : Stroke,
      (endStroke
        (batches.foldl (fun r b => addPoints r u b)
          (startStroke room u data freshId now).1)
        u sid).strokes = room.strokes ++ [entry] ∧
      entry.points = { x := data.x, y := data.y } :: batches.flatten := by
  have h0 : ((startStroke room u data freshId now).1).activeStrokes u =
      some ((startStroke room u data freshId now).2) := by
    simp [startStroke, mset]
  obtain ⟨ha, hs, hun, hre⟩ :=
    foldl_addPoints_active batches ((startStroke room u data freshId now).1)
      u ((startStroke room u data freshId now).2) h0
  refine ⟨{ (startStroke room u data freshId now).2 with
      points := ({ x := data.x, y := data.y } : Point) :: batches.flatten
      completed := true }, ?_, rfl⟩
  simp only [endStroke, ha]
  rw [hs]
  rfl

/-! ### The id-uniqueness invariant -/

/-- `redoIds` depends only on the `redoStack` field. -/
theorem redoIds_congr {r1 r2 : Room} (hr : r2.redoStack = r1.redoStack) :
    redoIds r2 = redoIds r1 := by
  funext u
  unfold redoIds
  rw [hr]

/-- `StateInv` depends only on `strokes` and `redoStack`. -/
theorem stateInv_congr {r1 r2 : Room} (hs : r2.strokes = r1.strokes)
    (hr : r2.redoStack = r1.redoStack) (h : StateInv r1) : StateInv r2 := by
  unfold StateInv
  rw [hs, redoIds_congr hr]
  exact h

/-- Reading a user's stack after a `mset` on a stroke-list map. -/
theorem strokeIds_getD_mset (m : String → Option (List Stroke)) (u : String)
    (l : List Stroke) (w : String) :
    strokeIds ((mset m u l w).getD []) =
      if w = u then strokeIds l else strokeIds ((m w).getD []) := by
  unfold mset
  by_cases hw : w = u <;> simp [hw]

/-- `strokeIds` distributes over append. -/
theorem strokeIds_append (l1 l2 : List Stroke) :
    strokeIds (l1 ++ l2) = strokeIds l1 ++ strokeIds l2 := by
  simp [strokeIds]

/-- The fresh room satisfies the invariant. -/
theorem stateInv_emptyRoom : StateInv emptyRoom := by
  refine ⟨by simp [strokeIds, emptyRoom], ?_, ?_, ?_⟩
  · intro u
    simp [redoIds, emptyRoom, strokeIds]
  · intro u i hi
    simp [redoIds, emptyRoom, strokeIds] at hi
  · intro u v i huv hi
    simp [redoIds, emptyRoom, strokeIds] at hi

/-- Completing an active stroke whose id is fresh (not in `strokes`, not in
any redo stack) preserves the invariant. -/
theorem endStroke_preserves_inv (room : Room) (u sid : String)
    (h : StateInv room)
    (hfresh : ∀ a, room.activeStrokes u = some a →
      a.id ∉ strokeIds room.strokes ∧ ∀ v, a.id ∉ redoIds room v) :
    StateInv (endStroke room u sid) := by
  cases ha : room.activeStrokes u with
  | none =>
      have hres : endStroke room u sid = room := by simp [endStroke, ha]
      rw [hres]
      exact h
  | some a =>
      obtain ⟨hfs, hfr⟩ := hfresh a ha
      obtain ⟨h1, h2, h3, h4⟩ := h
      have hres : endStroke room u sid = { room with
          strokes := room.strokes ++ [{ a with completed := true }]
          activeStrokes := mdel room.activeStrokes u
          undoStack := mset room.undoStack u
            (((room.undoStack u).getD []) ++ [a.id])
          redoStack := mset room.redoStack u [] } := by
        simp [endStroke, ha]
      rw [hres]
      have hredo : ∀ w, redoIds { room with
          strokes := room.strokes ++ [{ a with completed := true }]
          activeStrokes := mdel room.activeStrokes u
          undoStack := mset room.undoStack u
            (((room.undoStack u).getD []) ++ [a.id])
          redoStack := mset room.redoStack u [] } w =
          if w = u then ([] : List String) else redoIds room w := by
        intro w
        unfold redoIds
        rw [strokeIds_getD_mset]
        by_cases hw : w = u <;> simp [hw, strokeIds]
      refine ⟨?_, ?_, ?_, ?_⟩
      · show (strokeIds (room.strokes ++ [{ a with completed := true }])).Nodup
        rw [strokeIds_append]
        refine h1.append ?_ ?_
        · simp [strokeIds]
        · intro x hx hx2
          simp [strokeIds] at hx2
          exact hfs (hx2 ▸ hx)
      · intro w
        rw [hredo w]
        by_cases hw : w = u <;> simp [hw, h2 w]
      · intro w i hi
        rw [hredo w] at hi
        show i ∉ strokeIds (room.strokes ++ [{ a with completed := true }])
        rw [strokeIds_append]
        by_cases hw : w = u
        · rw [if_pos hw] at hi
          simp at hi
        · rw [if_neg hw] at hi
          intro hmem
          rcases List.mem_append.1 hmem with hm | hm
          · exact h3 w i hi hm
          · simp [strokeIds] at hm
            exact hfr w (hm ▸ hi)
      · intro w v i hwv hi
        rw [hredo w] at hi
        rw [hredo v]
        by_cases hw : w = u
        · rw [if_pos hw] at hi
          simp at hi
        · rw [if_neg hw] at hi
          by_cases hv : v = u
          · simp [hv]
          · rw [if_neg hv]
            exact h4 w v i hwv hi

/-- startStroke preserves the invariant (it only touches `activeStrokes`). -/
theorem startStroke_preserves_inv (room : Room) (u : String)
    (data : StrokeData) (freshId : String) (now : Nat) (h : StateInv room) :
    StateInv (startStroke room u data freshId now).1 :=
  stateInv_congr rfl rfl h

/-- appendPoints preserves the invariant (it only touches `activeStrokes`). -/
theorem addPoints_preserves_inv (room : Room) (u : String)
    (pts : List Point) (h : StateInv room) :
    StateInv (addPoints room u pts) := by
  cases ha : room.activeStrokes u with
  | none =>
      have hres : addPoints room u pts = room := by simp [addPoints, ha]
      rw [hres]
      exact h
  | some s =>
      by_cases hp : pts.length > 0
      · have hres : addPoints room u pts =
            { room with
              activeStrokes :=
                mset room.activeStrokes u
                  { s with points := s.points ++ pts } } := by
          simp [addPoints, ha, hp]
        rw [hres]
        exact stateInv_congr rfl rfl h
      · have hres : addPoints room u pts = room := by simp [addPoints, ha, hp]
        rw [hres]
        exact h

/-- clearRoom establishes the invariant outright. -/
theorem clearRoom_stateInv (room : Room) : StateInv (clearRoom room) :=
  stateInv_emptyRoom

/-- Undo preserves the invariant unconditionally. -/
theorem undo_preserves_inv (room : Room) (u : String) (h : StateInv room) :
    StateInv (undo room u).1 := by
  cases hu : room.undoStack u with
  | none =>
      have hres : (undo room u).1 = room := by simp [undo, hu]
      rw [hres]
      exact h
  | some stack =>
      cases hl : stack.getLast? with
      | none =>
          have hres : (undo room u).1 = room := by simp [undo, hu, hl]
          rw [hres]
          exact h
      | some i =>
          cases hr : removeFirstById room.strokes i with
          | none =>
              have hres : (undo room u).1 =
                  { room with
                    undoStack := mset room.undoStack u stack.dropLast } := by
                simp [undo, hu, hl, hr]
              rw [hres]
              exact stateInv_congr rfl rfl h
          | some p =>
              obtain ⟨s, rest⟩ := p
              have hres : (undo room u).1 =
                  { room with
                    strokes := rest
                    undoStack := mset room.undoStack u stack.dropLast
                    redoStack :=
                      mset room.redoStack u
                        (((room.redoStack u).getD []) ++ [s]) } := by
                simp [undo, hu, hl, hr]
              obtain ⟨hsid, l1, l2, hsplit, hrest, hfirst⟩ :=
                removeFirstById_eq_some hr
              obtain ⟨h1, h2, h3, h4⟩ := h
              have hidsl : strokeIds room.strokes =
                  strokeIds l1 ++ s.id :: strokeIds l2 := by
                rw [hsplit]
                simp [strokeIds]
              have hmem : s.id ∈ strokeIds room.strokes := by
                rw [hidsl]
                simp
              have hmid : (s.id :: (strokeIds l1 ++ strokeIds l2)).Nodup := by
                rw [← List.nodup_middle, ← hidsl]
                exact h1
              have hidsrest : strokeIds rest =
                  strokeIds l1 ++ strokeIds l2 := by
                rw [hrest]
                simp [strokeIds]
              have hnodup_rest : (strokeIds rest).Nodup := by
                rw [hidsrest]
                exact (List.nodup_cons.mp hmid).2
              have hnotin_rest : s.id ∉ strokeIds rest := by
                rw [hidsrest]
                exact (List.nodup_cons.mp hmid).1
              have hrest_sub : ∀ j, j ∈ strokeIds rest →
                  j ∈ strokeIds room.strokes := by
                intro j hj
                rw [hidsrest] at hj
                rw [hidsl]
                rcases List.mem_append.1 hj with hj2 | hj2
                · exact List.mem_append.2 (Or.inl hj2)
                · exact List.mem_append.2 (Or.inr (List.mem_cons_of_mem _ hj2))
              have hsnot : ∀ w, s.id ∉ redoIds room w := fun w hw =>
                h3 w s.id hw hmem
              rw [hres]
              have hredo : ∀ w, redoIds
                  { room with
                    strokes := rest
                    undoStack := mset room.undoStack u stack.dropLast
                    redoStack :=
                      mset room.redoStack u
                        (((room.redoStack u).getD []) ++ [s]) } w =
                  if w = u then redoIds room u ++ [s.id]
                  else redoIds room w := by
                intro w
                show strokeIds ((mset room.redoStack u
                    (((room.redoStack u).getD []) ++ [s]) w).getD []) =
                  if w = u then redoIds room u ++ [s.id] else redoIds room w
                rw [strokeIds_getD_mset]
                by_cases hw : w = u <;>
                  simp [hw, strokeIds_append, strokeIds, redoIds]
              refine ⟨?_, ?_, ?_, ?_⟩
              · exact hnodup_rest
              · intro w
                rw [hredo w]
                by_cases hw : w = u
                · rw [if_pos hw]
                  refine (h2 u).append (List.nodup_singleton _) ?_
                  intro x hx hx2
                  simp at hx2
                  exact hsnot u (hx2 ▸ hx)
                · rw [if_neg hw]
                  exact h2 w
              · intro w i hi
                rw [hredo w] at hi
                show i ∉ strokeIds rest
                by_cases hw : w = u
                · rw [if_pos hw] at hi
                  rcases List.mem_append.1 hi with hi2 | hi2
                  · intro hmem2
                    exact h3 u i hi2 (hrest_sub i hmem2)
                  · simp at hi2
                    rw [hi2]
                    exact hnotin_rest
                · rw [if_neg hw] at hi
                  intro hmem2
                  exact h3 w i hi (hrest_sub i hmem2)
              · intro w v i hwv hi
                rw [hredo w] at hi
                rw [hredo v]
                by_cases hw : w = u
                · rw [if_pos hw] at hi
                  have hv : ¬ v = u := fun hvu => hwv (hw.trans hvu.symm)
                  rw [if_neg hv]
                  rcases List.mem_append.1 hi with hi2 | hi2
                  · exact h4 u v i (hw ▸ hwv) hi2
                  · simp at hi2
                    rw [hi2]
                    exact hsnot v
                · rw [if_neg hw] at hi
                  by_cases hv : v = u
                  · rw [if_pos hv]
                    intro hmem2
                    rcases List.mem_append.1 hmem2 with hm | hm
                    · exact h4 w u i hw hi hm
                    · simp at hm
                      rw [hm] at hi
                      exact hsnot w hi
                  · rw [if_neg hv]
                    exact h4 w v i hwv hi

/-- Redo preserves the invariant unconditionally. -/
theorem redo_preserves_inv (room : Room) (u : String) (h : StateInv room) :
    StateInv (redo room u).1 := by
  cases hu : room.redoStack u with
  | none =>
      have hres : (redo room u).1 = room := by simp [redo, hu]
      rw [hres]
      exact h
  | some stack =>
      cases hl : stack.getLast? with
      | none =>
          have hres : (redo room u).1 = room := by simp [redo, hu, hl]
          rw [hres]
          exact h
      | some s =>
          have hres : (redo room u).1 =
              { room with
                strokes := room.strokes ++ [s]
                redoStack := mset room.redoStack u stack.dropLast
                undoStack :=
                  mset room.undoStack u
                    (((room.undoStack u).getD []) ++ [s.id]) } := by
            simp [redo, hu, hl]
          obtain ⟨h1, h2, h3, h4⟩ := h
          have hdecomp : stack.dropLast ++ [s] = stack :=
            List.dropLast_append_getLast? s hl
          have hsx : strokeIds stack =
              strokeIds stack.dropLast ++ [s.id] := by
            conv_lhs => rw [← hdecomp]
            rw [strokeIds_append]
            simp [strokeIds]
          have hredou : redoIds room u =
              strokeIds stack.dropLast ++ [s.id] := by
            unfold redoIds
            rw [hu]
            simpa using hsx
          have h2u := h2 u
          rw [hredou] at h2u
          have hdl_nodup : (strokeIds stack.dropLast).Nodup :=
            (List.nodup_append.1 h2u).1
          have hs_notin_dl : s.id ∉ strokeIds stack.dropLast := by
            intro hx
            exact (List.nodup_append.1 h2u).2.2 hx (by simp)
          have hs_in_redou : s.id ∈ redoIds room u := by
            rw [hredou]
            simp
          have hs_not_strokes : s.id ∉ strokeIds room.strokes :=
            h3 u s.id hs_in_redou
          have hdl_sub : ∀ j, j ∈ strokeIds stack.dropLast →
              j ∈ redoIds room u := by
            intro j hj
            rw [hredou]
            exact List.mem_append.2 (Or.inl hj)
          rw [hres]
          have hredo : ∀ w, redoIds
              { room with
                strokes := room.strokes ++ [s]
                redoStack := mset room.redoStack u stack.dropLast
                undoStack :=
                  mset room.undoStack u
                    (((room.undoStack u).getD []) ++ [s.id]) } w =
              if w = u then strokeIds stack.dropLast
              else redoIds room w := by
            intro w
            show strokeIds ((mset room.redoStack u stack.dropLast w).getD []) =
              if w = u then strokeIds stack.dropLast else redoIds room w
            rw [strokeIds_getD_mset]
            by_cases hw : w = u <;> simp [hw, redoIds]
          refine ⟨?_, ?_, ?_, ?_⟩
          · show (strokeIds (room.strokes ++ [s])).Nodup
            rw [strokeIds_append]
            refine h1.append ?_ ?_
            · simp [strokeIds]
            · intro x hx hx2
              simp [strokeIds] at hx2
              exact hs_not_strokes (hx2 ▸ hx)
          · intro w
            rw [hredo w]
            by_cases hw : w = u
            · rw [if_pos hw]
              exact hdl_nodup
            · rw [if_neg hw]
              exact h2 w
          · intro w i hi
            rw [hredo w] at hi
            show i ∉ strokeIds (room.strokes ++ [s])
            rw [strokeIds_append]
            intro hmem
            by_cases hw : w = u
            · rw [if_pos hw] at hi
              rcases List.mem_append.1 hmem with hm | hm
              · exact h3 u i (hdl_sub i hi) hm
              · simp [strokeIds] at hm
                rw [hm] at hi
                exact hs_notin_dl hi
            · rw [if_neg hw] at hi
              rcases List.mem_append.1 hmem with hm | hm
              · exact h3 w i hi hm
              · simp [strokeIds] at hm
                rw [hm] at hi
                exact h4 u w s.id (fun huw => hw huw.symm) hs_in_redou hi
          · intro w v i hwv hi
            rw [hredo w] at hi
            rw [hredo v]
            by_cases hw : w = u
            · rw [if_pos hw] at hi
              have hv : ¬ v = u := fun hvu => hwv (hw.trans hvu.symm)
              rw [if_neg hv]
              exact h4 u v i (hw ▸ hwv) (hdl_sub i hi)
            · rw [if_neg hw] at hi
              by_cases hv : v = u
              · rw [if_pos hv]
                intro hm
                exact h4 w u i hw hi (hdl_sub i hm)
              · rw [if_neg hv]
                exact h4 w v i hwv hi

/-- C4 counterexample: replaying the client-supplied stroke id `"x"` through
startStroke/completeStroke twice produces a reachable room whose `strokes`
hold the id `"x"` twice, so the claimed invariant does not hold at every
reachable state. -/
theorem replay_duplicates_id : ¬ (strokeIds roomReplay.strokes).Nodup := by
  decide

/-- C4 amended: every operation preserves the id-uniqueness invariant
(strokes duplicate-free; strokes and all redo stacks pairwise id-disjoint;
each redo stack duplicate-free), with completeStroke additionally requiring
that the completed stroke's id be fresh — not already in `strokes` or any
redo stack.  Replayed client-supplied ids violate exactly that proviso. -/
theorem operations_preserve_inv (room : Room) (h : StateInv room) :
    (∀ u data freshId now,
      StateInv (startStroke room u data freshId now).1) ∧
    (∀ u pts, StateInv (addPoints room u pts)) ∧
    (∀ u sid, (∀ a, room.activeStrokes u = some a →
        a.id ∉ strokeIds room.strokes ∧ ∀ v, a.id ∉ redoIds room v) →
      StateInv (endStroke room u sid)) ∧
    (∀ u, StateInv (undo room u).1) ∧
    (∀ u, StateInv (redo room u).1) ∧
    StateInv (clearRoom room) :=
  ⟨fun u data freshId now =>
      startStroke_preserves_inv room u data freshId now h,
   fun u pts => addPoints_preserves_inv room u pts h,
   fun u sid hf => endStroke_preserves_inv room u sid h hf,
   fun u => undo_preserves_inv room u h,
   fun u => redo_preserves_inv room u h,
   clearRoom_stateInv room⟩

/-- Witness for C4's amended theorem at the fresh room. -/
theorem operations_preserve_inv_witness :
    StateInv (endStroke emptyRoom "u" "x") ∧
    StateInv (clearRoom emptyRoom) :=
  ⟨(operations_preserve_inv emptyRoom stateInv_emptyRoom).2.2.1 "u" "x"
      (fun a ha => by simp [emptyRoom] at ha),
   (operations_preserve_inv emptyRoom stateInv_emptyRoom).2.2.2.2.2⟩
